import Mathlib

/-!
Verification development for the `dolfinx_mpc` vector-assembly module
(`python/dolfinx_mpc/assemble_vector.py`) and the constrained assembly
core it drives.

The Python wrapper (`cpp_form`, `apply_lifting`, `assemble_vector`) is
embedded directly from the source.  The C++ core routines it calls
(`dolfinx_mpc.cpp.mpc.assemble_vector`, `dolfinx_mpc.cpp.mpc.apply_lifting`)
are not part of the repository snapshot; they are modelled from the
specification (constraint table, index resolution, constrained assembly
loop, and the lifting formula `b <- b - scale * K^T (A_j (g_j - x0_j))`
stated in the source docstring).

Scalar values are modelled as `Int` (the numerical kernel is opaque to the
core, so only the additive/redistribution structure matters).
-/

namespace MPC

/-- Vectors of scalar values (local or global arrays). -/
abbrev Vec := List Int

/-- Error kinds of the assembly core (spec section 7): malformed constraint
table, a master index resolving to neither the owned range nor the ghost
list, and an out-of-range dof in the scatter target. -/
inductive AsmErr where
  | malformedTable
  | unresolvedIndex
  | outOfRangeDof
deriving DecidableEq

/-- Modelled from the spec: the index partition of a rank: a half-open owned
range `[lo, hi)` of global dof indices plus an ordered ghost sequence stored
after the owned range. -/
structure IndexMap where
  lo : Nat
  hi : Nat
  ghosts : List Nat
deriving DecidableEq

/-- Linear scan returning the position of the first occurrence of `s` in a
list (the "small linear scan" of spec section 4.3 step 5, also the ghost
search of section 4.2). -/
def scanPos (d : List Nat) (s : Nat) : Option Nat :=
  match d with
  | [] => none
  | x :: rest => if x = s then some 0 else (scanPos rest s).map (· + 1)

/-- Modelled from the spec: (section 4.2) resolve a master's global dof index
to a local storage slot: strictly interior owned indices map to
`g - lo`, otherwise an exact match at position `q` of the ghost sequence
maps to `q + (hi - lo)`; no match is a fatal integrity error (`none`). -/
def resolve (im : IndexMap) (g : Nat) : Option Nat :=
  if im.lo < g ∧ g < im.hi then some (g - im.lo)
  else
    match scanPos im.ghosts g with
    | some q => some (q + (im.hi - im.lo))
    | none => none

/-- The global index stored at local storage slot `s` (owned range first,
then ghosts); used for the self-reference check of spec section 4.3 step 5. -/
def slaveGlobal (im : IndexMap) (s : Nat) : Nat :=
  if s < im.hi - im.lo then im.lo + s else im.ghosts.getD (s - (im.hi - im.lo)) 0

/-- Modelled from the spec: (section 3) the CSR constraint table: ordered slave
indices, flat master/coefficient arrays, and an offsets array delimiting
slave `i`'s slice `[offsets[i], offsets[i+1])`. -/
structure ConstraintTable where
  slaves : List Nat
  masters : List Nat
  coeffs : List Int
  offsets : List Nat
deriving DecidableEq

/-- A list is non-decreasing (validation of the CSR offsets array). -/
def nondecreasing : List Nat → Bool
  | [] => true
  | [_] => true
  | a :: b :: rest => decide (a ≤ b) && nondecreasing (b :: rest)

/-- Modelled from the spec: (section 4.1) table validation at first use:
`offsets` non-decreasing and `offsets[last] == len(masters) ==
len(coefficients)`, with one offset entry per slave plus one. -/
def validTable (t : ConstraintTable) : Bool :=
  nondecreasing t.offsets
    && (t.offsets.getLastD 0 == t.masters.length)
    && (t.masters.length == t.coeffs.length)
    && (t.offsets.length == t.slaves.length + 1)

/-- The (master, coefficient) slice of the slave at position `p` of the
slave ordering. -/
def mastersOf (t : ConstraintTable) (p : Nat) : List (Nat × Int) :=
  ((t.masters.zip t.coeffs).drop (t.offsets.getD p 0)).take
    (t.offsets.getD (p + 1) 0 - t.offsets.getD p 0)

/-- Modelled from the spec: (section 3) the cell-to-slave index: the cells that
contain at least one slave, with a CSR slice per such cell into a flat
array of positions into the slave ordering. -/
structure CellSlaveIndex where
  slaveCells : List Nat
  offsets : List Nat
  cellSlaves : List Nat
deriving DecidableEq

/-- The slice of slave positions for cell `c`, or `none` when the cell
contains no slave (the fast path of spec section 4.3 step 3). -/
def cellSlaveSlice (ci : CellSlaveIndex) (c : Nat) : Option (List Nat) :=
  match scanPos ci.slaveCells c with
  | none => none
  | some k =>
      some ((ci.cellSlaves.drop (ci.offsets.getD k 0)).take
        (ci.offsets.getD (k + 1) 0 - ci.offsets.getD k 0))

/-- Modelled from the spec: everything the constrained assembly loop reads:
index partition, block size, cell count, per-cell dof map (local storage
indices), per-cell kernel output (the kernel is deterministic and opaque,
spec section 6, so it is represented by its output table), constraint
table and cell-to-slave index. -/
structure CoreInput where
  im : IndexMap
  bs : Nat
  numCells : Nat
  dofmap : List (List Nat)
  kernels : List Vec
  table : ConstraintTable
  ci : CellSlaveIndex
deriving DecidableEq

/-- Scatter-add of index/value pairs into the output array (spec section 4.3
step 6); an out-of-range index is fatal. -/
def scatterAdd (ps : List (Nat × Int)) (b : Vec) : Except AsmErr Vec :=
  match ps with
  | [] => .ok b
  | (i, v) :: rest =>
      if i < b.length then scatterAdd rest (b.set i (b.getD i 0 + v))
      else .error .outOfRangeDof

/-- Redistribution of one slave's contribution `v` over its (master,
coefficient) pairs (spec section 4.3 step 5): self-referential pairs are
skipped, unresolved masters are fatal, otherwise `coefficient * v` is added
at the master's resolved slot. -/
def addMasters (im : IndexMap) (sg : Nat) (v : Int) (ps : List (Nat × Int))
    (b : Vec) : Except AsmErr Vec :=
  match ps with
  | [] => .ok b
  | (m, co) :: rest =>
      if m = sg then addMasters im sg v rest b
      else
        match resolve im m with
        | none => .error .unresolvedIndex
        | some slot =>
            if slot < b.length then
              addMasters im sg v rest (b.set slot (b.getD slot 0 + co * v))
            else .error .outOfRangeDof

/-- Per-slave loop of one cell (spec section 4.3 steps 4-5): for each slave
position of the cell, locate the slave among the cell's dof-map entries,
redistribute its snapshot value to its masters, and zero its entry in the
live local buffer; returns the updated buffer and output array. -/
def processSlaves (inp : CoreInput) (cdofs : List Nat) (snapshot : Vec)
    (ps : List Nat) (buf : Vec) (b : Vec) : Except AsmErr (Vec × Vec) :=
  match ps with
  | [] => .ok (buf, b)
  | p :: rest =>
      match inp.table.slaves.get? p with
      | none => .error .malformedTable
      | some s =>
          match scanPos cdofs s with
          | none => processSlaves inp cdofs snapshot rest buf b
          | some j =>
              match addMasters inp.im (slaveGlobal inp.im s) (snapshot.getD j 0)
                  (mastersOf inp.table p) b with
              | .error e => .error e
              | .ok b2 => processSlaves inp cdofs snapshot rest (buf.set j 0) b2

/-- Modelled from the spec: (section 4.3) processing of one cell: evaluate
the kernel, take the slave path when the cell has slaves (snapshot, then
redistribute and zero), and scatter-add the remaining buffer through the
cell's dof-map entries. -/
def process_cell (inp : CoreInput) (b : Vec) (c : Nat) : Except AsmErr Vec :=
  let cdofs := inp.dofmap.getD c []
  let buf := inp.kernels.getD c []
  match cellSlaveSlice inp.ci c with
  | none => scatterAdd (cdofs.zip buf) b
  | some ps =>
      match processSlaves inp cdofs buf ps buf b with
      | .error e => .error e
      | .ok (buf2, b2) => scatterAdd (cdofs.zip buf2) b2

/-- The assembly loop over a list of cells in order; the first error aborts
the whole run. -/
def assembleCells (inp : CoreInput) (cells : List Nat) (b : Vec) :
    Except AsmErr Vec :=
  match cells with
  | [] => .ok b
  | c :: rest =>
      match process_cell inp b c with
      | .error e => .error e
      | .ok b2 => assembleCells inp rest b2

/-- Modelled from the spec: the constrained assembly core: validate the
constraint table at first use, then run the loop over all cells in
ascending order, accumulating additively into `b`. -/
def assemble_core (inp : CoreInput) (b : Vec) : Except AsmErr Vec :=
  if validTable inp.table then assembleCells inp (List.range inp.numCells) b
  else .error .malformedTable

/-- Modelled from the spec: `dolfinx.cpp.la.create_petsc_vector`: a fresh
zero vector with one local slot per owned and per ghost dof, times the
block size. -/
def create_petsc_vector (im : IndexMap) (bs : Nat) : Vec :=
  List.replicate ((im.hi - im.lo + im.ghosts.length) * bs) 0

/-- The caller-visible state of an `assemble_vector` call: the form, the
constraint data reachable from the `MultiPointConstraint`, and the
(optional) output vector `b`. -/
structure AsmWorld where
  form : Nat
  coreIn : CoreInput
  b : Option Vec
deriving DecidableEq

/-- The zeroed local array that `assemble_vector` hands to the core: the
caller's vector (or a freshly created one, when `b is None`) after
`b_local.set(0.0)`. -/
def initLocal (w : AsmWorld) : Vec :=
  let b0 :=
    match w.b with
    | none => create_petsc_vector w.coreIn.im w.coreIn.bs
    | some v => v
  List.replicate b0.length 0

/-- Embedding of `assemble_vector` (source lines 110-122): compile the form,
create `b` when it is `None`, zero the local array (`b_local.set(0.0)`),
invoke the core, and return `b`.  Errors of the core propagate unchanged;
the returned pair is the updated world and the returned vector. -/
def assemble_vector_w (w : AsmWorld) : Except AsmErr (AsmWorld × Vec) :=
  match assemble_core w.coreIn (initLocal w) with
  | .error e => .error e
  | .ok bout => .ok ({ w with b := some bout }, bout)

/-- Matrix-vector product over `Int` matrices stored as row lists. -/
def matVec (A : List Vec) (x : Vec) : Vec :=
  A.map (fun row => ((row.zip x).map (fun q => q.1 * q.2)).sum)

/-- Transposed matrix-vector product `K^T y`. -/
def matTVec (K : List Vec) (y : Vec) : Vec :=
  matVec K.transpose y

/-- Pointwise difference `g - x0`, reading absent `x0` entries as zero (the
`x0` list defaults to empty in `apply_lifting`). -/
def subVec : Vec → Vec → Vec
  | [], _ => []
  | g :: gs, [] => g :: subVec gs []
  | g :: gs, x :: xs => (g - x) :: subVec gs xs

/-- Pointwise sum of two vectors, padding the shorter one with zeros. -/
def padAdd : Vec → Vec → Vec
  | [], ys => ys
  | x :: xs, [] => x :: padAdd xs []
  | x :: xs, y :: ys => (x + y) :: padAdd xs ys

/-- Modelled from the spec: the inputs of the lifting core: the constraint
matrix `K` of the multi point constraint, one matrix `A_j` per form, the
boundary-condition value vectors `g_j`, the `x0_j` vectors, and the scale. -/
structure LiftIn where
  K : List Vec
  forms : List (List Vec)
  bcs : List Vec
  x0 : List Vec
  scale : Int
deriving DecidableEq

/-- The lifting contribution of form `j`: `K^T (A_j (g_j - x0_j))`. -/
def liftTerm (L : LiftIn) (j : Nat) : Vec :=
  matTVec L.K (matVec (L.forms.getD j []) (subVec (L.bcs.getD j []) (L.x0.getD j [])))

/-- The total lifting direction `sum_j K^T (A_j (g_j - x0_j))`; it depends
on the boundary conditions and `x0` but not on `b`. -/
def liftDelta (L : LiftIn) : Vec :=
  (List.range L.forms.length).foldl (fun acc j => padAdd acc (liftTerm L j)) []

/-- In-place subtractive update of `b` by `scale * delta`, entry by entry
(entries of `delta` past the end of `b` are ignored, entries of `b` past the
end of `delta` are kept). -/
def liftApply (scale : Int) (delta : Vec) : Vec → Nat → Vec
  | [], _ => []
  | bi :: rest, i => (bi - scale * delta.getD i 0) :: liftApply scale delta rest (i + 1)

/-- Modelled from the spec: the lifting core called by `apply_lifting`
(source docstring: `b <- b - scale * K^T (A_j (g_j - x0_j))`). -/
def apply_lifting_run (L : LiftIn) (b : Vec) : Vec :=
  liftApply L.scale (liftDelta L) b 0

/-- The caller-visible state of an `apply_lifting` call: the lifting inputs
(form matrices, boundary conditions, constraint matrix, `x0`, scale) and
the vector `b`. -/
structure LiftWorld where
  lift : LiftIn
  b : Vec
deriving DecidableEq

/-- Embedding of `apply_lifting` (source lines 32-78): update `b` in place
through its local form and return `None` (the Python function body has no
return statement). -/
def apply_lifting_w (u : LiftWorld) : LiftWorld × Option Vec :=
  ({ u with b := apply_lifting_run u.lift u.b }, none)

/-- A compiled `dolfinx.cpp.fem.Form`: the form it came from together with
the compilation parameters used (parameter dictionaries are modelled as
association lists). -/
structure CppObj where
  formId : Nat
  fcp : List (Nat × Nat)
  jitp : List (Nat × Nat)
deriving DecidableEq

/-- The Python values `cpp_form` discriminates on: a `dolfinx.fem.Form`
wrapper (holding its `_cpp_object`), a `ufl.Form`, tuples and lists, an
already-compiled cpp form, and any other object. -/
inductive PyVal where
  | femForm (c : CppObj)
  | uflForm (i : Nat)
  | tup (l : List PyVal)
  | lst (l : List PyVal)
  | cppObj (c : CppObj)
  | other (n : Nat)

mutual

/-- Embedding of `cpp_form` (source lines 19-29): a `dolfinx.fem.Form`
yields its `_cpp_object`; a `ufl.Form` is compiled with the given
parameters; tuples and lists are mapped recursively — with the default
(empty) parameters, as in the source — producing a list; anything else is
returned unchanged. -/
def cpp_form (v : PyVal) (fcp jitp : List (Nat × Nat)) : PyVal :=
  match v with
  | .femForm c => .cppObj c
  | .uflForm i => .cppObj ⟨i, fcp, jitp⟩
  | .tup l => .lst (cppFormList l)
  | .lst l => .lst (cppFormList l)
  | .cppObj c => .cppObj c
  | .other n => .other n

/-- Elementwise recursive conversion of a tuple or list argument of
`cpp_form` (`list(map(lambda sub_form: cpp_form(sub_form), form))`). -/
def cppFormList (l : List PyVal) : List PyVal :=
  match l with
  | [] => []
  | s :: rest => cpp_form s [] [] :: cppFormList rest

end

/-- A trivial core input: no cells, empty (valid) constraint table. -/
def coreIn0 : CoreInput :=
  ⟨⟨0, 0, []⟩, 1, 0, [], [], ⟨[], [], [], [0]⟩, ⟨[], [0], []⟩⟩

/-- One cell `[0, 1]` whose slave (storage slot 1, ghost global index 8) has
the single master with global index 9 — storage slot 0, which is also a dof
of the cell — with coefficient 1; the kernel returns `[10, 7]`. -/
def inpC : CoreInput :=
  ⟨⟨5, 5, [9, 8]⟩, 1, 1, [[0, 1]], [[10, 7]], ⟨[1], [9], [1], [0, 1]⟩,
    ⟨[0], [0, 1], [0]⟩⟩

/-- One cell `[0, 1]` whose slave (storage slot 1, ghost global index 8) has
the single master with global index 4 — storage slot 2, not a dof of the
cell — with coefficient 1; the kernel returns `[10, 7]`. -/
def inpW : CoreInput :=
  ⟨⟨5, 5, [9, 8, 4]⟩, 1, 1, [[0, 1]], [[10, 7]], ⟨[1], [4], [1], [0, 1]⟩,
    ⟨[0], [0, 1], [0]⟩⟩

/-- One cell whose slave references master global index 7, which resolves to
neither the owned range `[5, 5)` nor the ghost list `[9, 8]`: assembling it
hits the fatal unresolved-index error. -/
def inpBad : CoreInput :=
  ⟨⟨5, 5, [9, 8]⟩, 1, 2, [[0, 1]], [[10, 7]], ⟨[1], [7], [1], [0, 1]⟩,
    ⟨[0], [0, 1], [0]⟩⟩

/-- An `assemble_vector` call state over `inpBad` with a caller-supplied
vector. -/
def wBad : AsmWorld := ⟨0, inpBad, some [0, 0]⟩

/-- An `assemble_vector` call state over `inpC` with `b` absent (`None`). -/
def wDet : AsmWorld := ⟨0, inpC, none⟩

/-- A second, independently written copy of the inputs of `wDet` (equal as a
value but a distinct construction). -/
def wDet2 : AsmWorld :=
  ⟨0, ⟨⟨5, 5, [9, 8]⟩, 1, 1, [[0, 1]], [[10, 7]], ⟨[1], [9], [1], [0, 1]⟩,
    ⟨[0], [0, 1], [0]⟩⟩, none⟩

/-- A lifting input with `K = [[1]]`, one form `A = [[1]]`, one
boundary-condition value `g = [3]`, `x0 = [0]`, scale 1. -/
def liftIn0 : LiftIn := ⟨[[1]], [[[1]]], [[3]], [[0]], 1⟩

theorem getD_set_self (l : Vec) (i : Nat) (v : Int) (h : i < l.length) :
    (l.set i v).getD i 0 = v := by
  rw [List.getD_eq_getElem?_getD, List.getElem?_set_self h]
  rfl

theorem getD_set_ne (l : Vec) (i j : Nat) (v : Int) (h : i ≠ j) :
    (l.set i v).getD j 0 = l.getD j 0 := by
  rw [List.getD_eq_getElem?_getD, List.getElem?_set_ne h,
    ← List.getD_eq_getElem?_getD]

theorem scanPos_mem (d : List Nat) (s : Nat) (j : Nat)
    (h : scanPos d s = some j) : s ∈ d := by
  induction d generalizing j with
  | nil => simp [scanPos] at h
  | cons x rest ih =>
      by_cases hx : x = s
      · exact hx ▸ List.mem_cons_self x rest
      · simp only [scanPos, if_neg hx, Option.map_eq_some'] at h
        obtain ⟨j2, hj2, _⟩ := h
        exact List.mem_cons_of_mem x (ih j2 hj2)

theorem scatterAdd_ok (ps : List (Nat × Int)) (b : Vec)
    (h : ∀ q ∈ ps, q.1 < b.length) :
    ∃ b2, scatterAdd ps b = .ok b2 ∧ b2.length = b.length ∧
      ∀ i, b2.getD i 0 =
        b.getD i 0 + ((ps.filter (fun q => q.1 == i)).map Prod.snd).sum := by
  induction ps generalizing b with
  | nil => exact ⟨b, rfl, rfl, by simp⟩
  | cons q rest ih =>
      obtain ⟨i0, v0⟩ := q
      have hi0 : i0 < b.length := h _ (List.mem_cons_self _ _)
      have hrest : ∀ q ∈ rest, q.1 < (b.set i0 (b.getD i0 0 + v0)).length := by
        intro q hq
        rw [List.length_set]
        exact h q (List.mem_cons_of_mem _ hq)
      obtain ⟨b2, hrun, hlen, hpt⟩ := ih (b.set i0 (b.getD i0 0 + v0)) hrest
      refine ⟨b2, ?_, ?_, ?_⟩
      · simpa [scatterAdd, hi0] using hrun
      · rw [hlen, List.length_set]
      · intro i
        rw [hpt i]
        by_cases hii : i0 = i
        · subst hii
          rw [getD_set_self _ _ _ hi0]
          simp [List.filter_cons]
          ring
        · rw [getD_set_ne _ _ _ _ hii]
          simp [List.filter_cons, hii]

theorem scatterAdd_length (ps : List (Nat × Int)) :
    ∀ b b2, scatterAdd ps b = .ok b2 → b2.length = b.length := by
  induction ps with
  | nil =>
      intro b b2 h
      simp only [scatterAdd] at h
      cases h
      rfl
  | cons q rest ih =>
      intro b b2 h
      obtain ⟨i0, v0⟩ := q
      simp only [scatterAdd] at h
      split at h
      · rw [ih _ _ h, List.length_set]
      · exact absurd h (by simp)

theorem addMasters_length (ps : List (Nat × Int)) :
    ∀ im sg v b b2, addMasters im sg v ps b = .ok b2 → b2.length = b.length := by
  induction ps with
  | nil =>
      intro im sg v b b2 h
      simp only [addMasters] at h
      cases h
      rfl
  | cons q rest ih =>
      intro im sg v b b2 h
      obtain ⟨m, co⟩ := q
      simp only [addMasters] at h
      split at h
      · exact ih _ _ _ _ _ h
      · split at h
        · exact absurd h (by simp)
        · split at h
          · rw [ih _ _ _ _ _ h, List.length_set]
          · exact absurd h (by simp)

theorem processSlaves_length (ps : List Nat) :
    ∀ inp cdofs snap buf b buf2 b2,
      processSlaves inp cdofs snap ps buf b = .ok (buf2, b2) →
      b2.length = b.length := by
  induction ps with
  | nil =>
      intro inp cdofs snap buf b buf2 b2 h
      simp only [processSlaves] at h
      cases h
      rfl
  | cons p rest ih =>
      intro inp cdofs snap buf b buf2 b2 h
      simp only [processSlaves] at h
      split at h
      · exact absurd h (by simp)
      · split at h
        · exact ih _ _ _ _ _ _ _ h
        · split at h
          · exact absurd h (by simp)
          · rw [ih _ _ _ _ _ _ _ h]
            next hadd => exact addMasters_length _ _ _ _ _ _ hadd

theorem process_cell_length (inp : CoreInput) (b : Vec) (c : Nat) (b2 : Vec)
    (h : process_cell inp b c = .ok b2) : b2.length = b.length := by
  simp only [process_cell] at h
  split at h
  · exact scatterAdd_length _ _ _ h
  · split at h
    · exact absurd h (by simp)
    · next buf2 bmid hps =>
        rw [scatterAdd_length _ _ _ h]
        exact processSlaves_length _ _ _ _ _ _ _ _ hps

theorem assembleCells_length (cells : List Nat) :
    ∀ inp b b2, assembleCells inp cells b = .ok b2 → b2.length = b.length := by
  induction cells with
  | nil =>
      intro inp b b2 h
      simp only [assembleCells] at h
      cases h
      rfl
  | cons c rest ih =>
      intro inp b b2 h
      simp only [assembleCells] at h
      split at h
      · exact absurd h (by simp)
      · next bmid hpc =>
          rw [ih _ _ _ h]
          exact process_cell_length _ _ _ _ hpc

theorem assemble_core_length (inp : CoreInput) (b b2 : Vec)
    (h : assemble_core inp b = .ok b2) : b2.length = b.length := by
  simp only [assemble_core] at h
  split at h
  · exact assembleCells_length _ _ _ _ h
  · exact absurd h (by simp)

theorem filter_zip_not_mem (d : List Nat) (buf : Vec) (i : Nat) (h : i ∉ d) :
    (d.zip buf).filter (fun q => q.1 == i) = [] := by
  apply List.filter_eq_nil_iff.mpr
  intro a ha
  have hmem : a.1 ∈ d := (List.of_mem_zip ha).1
  simp only [beq_iff_eq]
  intro heq
  exact h (heq ▸ hmem)

theorem sum_filter_zip_single (d : List Nat) (s : Nat) :
    ∀ (buf : Vec) (j : Nat), scanPos d s = some j → d.count s = 1 → j < buf.length →
      ((((d.zip (buf.set j 0)).filter (fun q => q.1 == s)).map Prod.snd)).sum
        = 0 := by
  induction d with
  | nil => intro buf j hscan _ _; simp [scanPos] at hscan
  | cons x rest ih =>
      intro buf j hscan hcount hj
      by_cases hx : x = s
      · subst hx
        have hj0 : j = 0 := by
          simp [scanPos] at hscan
          omega
        subst hj0
        cases buf with
        | nil => simp at hj
        | cons y ys =>
            have hc0 : rest.count x = 0 := by
              simp [List.count_cons] at hcount
              omega
            have hnot : x ∉ rest := by
              intro hm
              have := List.count_pos_iff.mpr hm
              omega
            simp only [List.set_cons_zero, List.zip_cons_cons, List.filter_cons,
              beq_self_eq_true, if_true, List.map_cons, List.sum_cons]
            rw [filter_zip_not_mem rest ys x hnot]
            simp
      · have hstep : ∃ j2, scanPos rest s = some j2 ∧ j = j2 + 1 := by
          simp only [scanPos, if_neg hx, Option.map_eq_some'] at hscan
          obtain ⟨j2, hj2, hje⟩ := hscan
          exact ⟨j2, hj2, hje.symm⟩
        obtain ⟨j2, hj2, rfl⟩ := hstep
        cases buf with
        | nil => simp at hj
        | cons y ys =>
            have hcount2 : rest.count s = 1 := by
              have := List.count_cons s x rest
              simp [hx] at this
              omega
            have hj2len : j2 < ys.length := by simpa using hj
            have hxb : (x == s) = false := by simpa using hx
            simp only [List.set_cons_succ, List.zip_cons_cons, List.filter_cons,
              hxb, Bool.false_eq_true, if_false]
            exact ih ys j2 hj2 hcount2 hj2len

theorem assembleCells_append_error (cs1 : List Nat) :
    ∀ cs2 inp b e, assembleCells inp cs1 b = .error e →
      assembleCells inp (cs1 ++ cs2) b = .error e := by
  induction cs1 with
  | nil =>
      intro cs2 inp b e h
      simp only [assembleCells] at h
      exact absurd h (by simp)
  | cons c rest ih =>
      intro cs2 inp b e h
      simp only [assembleCells] at h ⊢
      split at h
      · next e2 hpc => exact h
      · next bmid hpc => exact ih _ _ _ _ h

mutual

theorem cpp_form_fix (v : PyVal) (f1 j1 f2 j2 : List (Nat × Nat)) :
    cpp_form (cpp_form v f1 j1) f2 j2 = cpp_form v f1 j1 := by
  cases v with
  | femForm c => rfl
  | uflForm i => rfl
  | tup l =>
      show cpp_form (.lst (cppFormList l)) f2 j2 = .lst (cppFormList l)
      simp only [cpp_form]
      rw [cppFormList_fix l]
  | lst l =>
      show cpp_form (.lst (cppFormList l)) f2 j2 = .lst (cppFormList l)
      simp only [cpp_form]
      rw [cppFormList_fix l]
  | cppObj c => rfl
  | other n => rfl

theorem cppFormList_fix (l : List PyVal) :
    cppFormList (cppFormList l) = cppFormList l := by
  cases l with
  | nil => rfl
  | cons s rest =>
      simp only [cppFormList]
      rw [cpp_form_fix s [] [] [] [], cppFormList_fix rest]

end

theorem cppFormList_eq_map (l : List PyVal) :
    cppFormList l = l.map (fun s => cpp_form s [] []) := by
  induction l with
  | nil => rfl
  | cons s rest ih => simp only [cppFormList, List.map_cons, ih]

theorem liftApply_getD (scale : Int) (delta : Vec) :
    ∀ (b : Vec) (i k : Nat),
      (liftApply scale delta b i).getD k 0 =
        if k < b.length then b.getD k 0 - scale * delta.getD (i + k) 0
        else 0 := by
  intro b
  induction b with
  | nil => intro i k; simp [liftApply]
  | cons bi rest ih =>
      intro i k
      cases k with
      | zero => simp [liftApply]
      | succ k2 =>
          simp only [liftApply, List.getD_cons_succ, List.length_cons]
          rw [ih (i + 1) k2]
          have harith : i + 1 + k2 = i + (k2 + 1) := by omega
          rw [harith]
          have hiff : k2 < rest.length ↔ k2 + 1 < rest.length + 1 := by omega
          rw [if_congr hiff rfl rfl]

/-- C1 counterexample: over a trivial mesh (no cells, so the core adds
nothing) the core itself is additive and would keep the caller's value `5`,
but `assemble_vector` returns `[0]` when handed `b = [5]`: line 119 of the
source (`b_local.set(0.0)`) zeroes the caller's vector, so the caller's
values are not reflected in the result, contradicting the claim. -/
theorem C1_zeroing_counterexample :
    assemble_core coreIn0 [5] = .ok [5] ∧
      assemble_vector_w ⟨0, coreIn0, some [5]⟩ =
        .ok (⟨0, coreIn0, some [0]⟩, [0]) ∧
      (([0] : Vec) ≠ [5]) :=
  ⟨rfl, rfl, by decide⟩

/-- C1 amended: `assemble_vector` zeroes the local array of `b` itself
(`b_local.set(0.0)`) before the core's additive accumulation, so its result
is independent of the values the caller placed in `b` — handing it any
vector is the same as handing it a zero vector of the same size. -/
theorem C1_wrapper_zeroes_first (w : AsmWorld) (v0 : Vec) :
    assemble_vector_w { w with b := some v0 } =
      assemble_vector_w { w with b := some (List.replicate v0.length 0) } := by
  simp only [assemble_vector_w, initLocal, List.length_replicate]

/-- C2 counterexample: `apply_lifting` is an operation of this module that
subtracts boundary-condition values from the output vector: with `K = [[1]]`,
`A = [[1]]`, bc value `g = [3]`, `x0 = [0]` and scale 1, it turns `b = [10]`
into `[7] = [10 - 1 * 3]`, so the module does apply boundary-condition
values to `b`. -/
theorem C2_lifting_counterexample :
    apply_lifting_w ⟨liftIn0, [10]⟩ = (⟨liftIn0, [7]⟩, none) ∧
      (7 : Int) = 10 - 1 * 3 ∧ ((7 : Int) ≠ 10) :=
  ⟨rfl, by decide, by decide⟩

/-- C2 amended: the assembly core itself applies no boundary conditions (it
reads none), but the module's `apply_lifting` does subtract the
scale-weighted lifting term derived from the boundary-condition values:
every entry of `b` is updated to `b[k] - scale * delta[k]` where `delta`
depends only on the constraint matrix, the forms, the bc values and `x0` —
never overwriting an entry of `b` with a bc value. -/
theorem C2_lifting_is_subtractive (L : LiftIn) (b : Vec) (k : Nat) :
    (apply_lifting_run L b).getD k 0 =
      if k < b.length then b.getD k 0 - L.scale * (liftDelta L).getD k 0
      else 0 := by
  have h := liftApply_getD L.scale (liftDelta L) b 0 k
  simpa [apply_lifting_run] using h

/-- C3: when `b` is `None`, `assemble_vector` creates and returns a vector
with one local slot per owned and per ghost dof of the constraint's index
partition, times the block size. -/
theorem C3_created_vector_size (w : AsmWorld) (w2 : AsmWorld) (v : Vec)
    (hb : w.b = none) (h : assemble_vector_w w = .ok (w2, v)) :
    v.length =
      (w.coreIn.im.hi - w.coreIn.im.lo + w.coreIn.im.ghosts.length)
        * w.coreIn.bs := by
  simp only [assemble_vector_w] at h
  split at h
  · exact absurd h (by simp)
  · next bout hcore =>
      have hlen := assemble_core_length _ _ _ hcore
      simp only [Except.ok.injEq, Prod.mk.injEq] at h
      rw [← h.2, hlen]
      simp [initLocal, hb, create_petsc_vector]

/-- C3 witness: over `inpC` (owned range `[5, 5)`, two ghosts, block size 1)
the created vector has `(5 - 5 + 2) * 1 = 2` entries. -/
theorem C3_witness :
    ([17, 0] : Vec).length =
      (wDet.coreIn.im.hi - wDet.coreIn.im.lo + wDet.coreIn.im.ghosts.length)
        * wDet.coreIn.bs :=
  C3_created_vector_size wDet ⟨0, inpC, some [17, 0]⟩ [17, 0] rfl rfl

/-- C4: determinism: `assemble_vector` applied to identical inputs (no
intervening mutation, so equal call states) produces identical results. -/
theorem C4_deterministic (w1 w2 : AsmWorld) (h : w1 = w2) :
    assemble_vector_w w1 = assemble_vector_w w2 := by rw [h]

/-- C4 witness: two independently written but equal call states give
identical assembly results. -/
theorem C4_witness : assemble_vector_w wDet = assemble_vector_w wDet2 :=
  C4_deterministic wDet wDet2 (by decide)

/-- C5: frame condition: a successful `assemble_vector` call leaves the form
and the constraint data unchanged (only `b` is replaced), and
`apply_lifting` leaves the form matrices, boundary conditions, constraint
matrix, `x0` and scale unchanged. -/
theorem C5_only_b_mutated (w w2 : AsmWorld) (v : Vec) (u : LiftWorld)
    (h : assemble_vector_w w = .ok (w2, v)) :
    w2.form = w.form ∧ w2.coreIn = w.coreIn ∧
      (apply_lifting_w u).1.lift = u.lift := by
  refine ⟨?_, ?_, rfl⟩ <;>
  · simp only [assemble_vector_w] at h
    split at h
    · exact absurd h (by simp)
    · next bout hcore =>
        simp only [Except.ok.injEq, Prod.mk.injEq] at h
        rw [← h.1]

/-- C5 witness: instantiation of the frame condition at a concrete call. -/
theorem C5_witness :
    (AsmWorld.mk 0 coreIn0 (some [0])).form =
        (AsmWorld.mk 0 coreIn0 (some [5])).form ∧
      (AsmWorld.mk 0 coreIn0 (some [0])).coreIn =
        (AsmWorld.mk 0 coreIn0 (some [5])).coreIn ∧
      (apply_lifting_w ⟨liftIn0, [10]⟩).1.lift =
        (LiftWorld.mk liftIn0 [10]).lift :=
  C5_only_b_mutated ⟨0, coreIn0, some [5]⟩ ⟨0, coreIn0, some [0]⟩ [0]
    ⟨liftIn0, [10]⟩ rfl

/-- C6: failure semantics: an error while assembling an earlier cell aborts
the whole run with that error (later cells are never retried or papered
over), and a core error makes `assemble_vector` surface exactly that error —
it never returns a vector. -/
theorem C6_errors_abort (inp : CoreInput) (cs1 cs2 : List Nat) (b : Vec)
    (e : AsmErr) (w : AsmWorld)
    (h1 : assembleCells inp cs1 b = .error e)
    (h2 : assemble_core w.coreIn (initLocal w) = .error e) :
    assembleCells inp (cs1 ++ cs2) b = .error e ∧
      assemble_vector_w w = .error e ∧ ∀ r, assemble_vector_w w ≠ .ok r := by
  have hw : assemble_vector_w w = .error e := by
    simp only [assemble_vector_w, h2]
  exact ⟨assembleCells_append_error cs1 cs2 inp b e h1, hw, by simp [hw]⟩

/-- C6 witness: the unresolved master of `inpBad` aborts assembly of the
cell list `[0, 1]` at cell 0, and `assemble_vector` over `inpBad` surfaces
the unresolved-index error with no partial vector. -/
theorem C6_witness :
    assembleCells inpBad ([0] ++ [1]) [0, 0] = .error .unresolvedIndex ∧
      assemble_vector_w wBad = .error .unresolvedIndex ∧
      ∀ r, assemble_vector_w wBad ≠ .ok r :=
  C6_errors_abort inpBad [0] [1] [0, 0] .unresolvedIndex wBad rfl rfl

/-- C7 counterexample: the single cell of `inpC` contains exactly one slave
(storage slot 1, pre-redistribution kernel value 7) mapped to exactly one
master (storage slot 0) with coefficient 1, yet the master's slot increases
by 17, not by `1 * 7`: the master is itself a dof of the cell, so its slot
also receives the direct scatter contribution 10. -/
theorem C7_redistribution_counterexample :
    process_cell inpC [0, 0] 0 = .ok [17, 0] ∧ ¬((17 : Int) - 0 = 1 * 7) :=
  ⟨rfl, by decide⟩

/-- C7 amended: for a cell with exactly one slave, mapped to one
non-self-referential master with coefficient `co` whose resolved slot is not
itself a dof of the cell, processing the cell increases the master's slot by
exactly `co` times the slave's pre-redistribution kernel value, and the
slave's own slot receives zero net contribution from the cell (when the
master is a dof of the cell, its own direct scatter contribution is added
on top). -/
theorem C7_redistribution (inp : CoreInput) (c p s j m slot : Nat) (co : Int)
    (b : Vec)
    (h1 : cellSlaveSlice inp.ci c = some [p])
    (h2 : inp.table.slaves.get? p = some s)
    (h3 : scanPos (inp.dofmap.getD c []) s = some j)
    (hcnt : (inp.dofmap.getD c []).count s = 1)
    (h4 : mastersOf inp.table p = [(m, co)])
    (h5 : m ≠ slaveGlobal inp.im s)
    (h6 : resolve inp.im m = some slot)
    (h7 : slot < b.length)
    (h8 : slot ∉ inp.dofmap.getD c [])
    (hjb : j < (inp.kernels.getD c []).length)
    (hall : ∀ d ∈ inp.dofmap.getD c [], d < b.length) :
    ∃ b2, process_cell inp b c = .ok b2 ∧
      b2.getD slot 0 =
        b.getD slot 0 + co * (inp.kernels.getD c []).getD j 0 ∧
      b2.getD s 0 = b.getD s 0 := by
  have hsmem : s ∈ inp.dofmap.getD c [] := scanPos_mem _ _ _ h3
  have hss : slot ≠ s := fun he => h8 (he ▸ hsmem)
  have hred : process_cell inp b c =
      scatterAdd
        ((inp.dofmap.getD c []).zip ((inp.kernels.getD c []).set j 0))
        (b.set slot
          (b.getD slot 0 + co * (inp.kernels.getD c []).getD j 0)) := by
    simp only [process_cell, h1, processSlaves, h2, h3, h4, addMasters,
      if_neg h5, h6, if_pos h7]
  have hallb1 : ∀ q ∈ (inp.dofmap.getD c []).zip
      ((inp.kernels.getD c []).set j 0),
      q.1 < (b.set slot
        (b.getD slot 0 + co * (inp.kernels.getD c []).getD j 0)).length := by
    intro q hq
    rw [List.length_set]
    exact hall _ (List.of_mem_zip hq).1
  obtain ⟨b2, hrun, hlen, hpt⟩ := scatterAdd_ok _ _ hallb1
  refine ⟨b2, ?_, ?_, ?_⟩
  · rw [hred, hrun]
  · rw [hpt slot, filter_zip_not_mem _ _ _ h8]
    simp only [List.map_nil, List.sum_nil, add_zero]
    exact getD_set_self _ _ _ h7
  · rw [hpt s, sum_filter_zip_single _ _ _ _ h3 hcnt hjb,
      getD_set_ne _ _ _ _ hss]
    simp

/-- C7 witness: in `inpW` the master (storage slot 2) is not a dof of the
cell `[0, 1]`: its slot increases by exactly `1 * 7` and the slave's slot
stays at zero. -/
theorem C7_witness :
    ∃ b2, process_cell inpW [0, 0, 0] 0 = .ok b2 ∧
      b2.getD 2 0 = (0 : Int) + 1 * 7 ∧ b2.getD 1 0 = (0 : Int) :=
  C7_redistribution inpW 0 0 1 1 4 2 1 [0, 0, 0] (by decide) (by decide)
    (by decide) (by decide) (by decide) (by decide) (by decide) (by decide)
    (by decide) (by decide) (by decide)

/-- C8: `cpp_form` is the identity on any argument that is not a fem form, a
ufl form, a tuple or a list (already-compiled cpp objects and arbitrary
other objects are returned unchanged), and it is idempotent: applying it to
its own result (with any parameters) returns that result unchanged. -/
theorem C8_identity_and_idempotent :
    (∀ (c : CppObj) (f j : List (Nat × Nat)),
        cpp_form (.cppObj c) f j = .cppObj c) ∧
      (∀ (n : Nat) (f j : List (Nat × Nat)),
        cpp_form (.other n) f j = .other n) ∧
      ∀ (v : PyVal) (f1 j1 f2 j2 : List (Nat × Nat)),
        cpp_form (cpp_form v f1 j1) f2 j2 = cpp_form v f1 j1 :=
  ⟨fun _ _ _ => rfl, fun _ _ _ => rfl, cpp_form_fix⟩

/-- C9: a tuple or list argument is converted elementwise with the default
(empty) compilation parameters, whatever parameters the outer call got: the
outer parameters never reach nested forms, and in particular a nested ufl
form is always compiled with empty parameter dictionaries. -/
theorem C9_nested_use_default_params (l : List PyVal)
    (f1 j1 f2 j2 : List (Nat × Nat)) (i : Nat) :
    cpp_form (.lst l) f1 j1 = .lst (l.map (fun s => cpp_form s [] [])) ∧
      cpp_form (.tup l) f1 j1 = cpp_form (.lst l) f2 j2 ∧
      cpp_form (.lst [.uflForm i]) f1 j1 = .lst [.cppObj ⟨i, [], []⟩] :=
  ⟨by simp only [cpp_form, cppFormList_eq_map], rfl, rfl⟩

/-- C10: `apply_lifting` always returns `None`: the update is applied in
place to `b` and no vector object is handed back to the caller. -/
theorem C10_returns_none (u : LiftWorld) : (apply_lifting_w u).2 = none := rfl

end MPC
